import Mathlib

/-!
Verification of the benchmark harness (`src/BenchmarkRunner.tsx`).

This file is a shallow embedding, in Lean 4, of the benchmark harness that
measures state-propagation latency under two strategies ("context", i.e. the
scoped provider strategy, and "redux", i.e. the broadcast store strategy)
across a matrix of payload sizes and tree depths.

Modelling conventions:
* JavaScript objects used as string-keyed records (`newResults.context`,
  `newResults.redux` and their nested per-size objects) are modelled as
  association lists `List (String × α)` with JS assignment semantics
  (`setKey`): an existing key is overwritten in place, a new key is appended,
  so `Object.keys` order and count are preserved faithfully.
* `performance.now()` timestamps and elapsed times are modelled as rationals;
  monotonicity of the clock (`startTime ≤ endTime`) is an explicit hypothesis
  where non-negativity of an elapsed time is claimed.
* `Math.random()` is modelled as an arbitrary stream `rand : Nat → ℚ` with the
  hypothesis `0 ≤ rand i < 1`.
* React mounting/effects: mounting `<BenchmarkApp>` renders a chain of
  `NestedChild` layers and then runs the leaf's `useEffect` once (empty
  dependency array), which applies the update and then calls `onComplete`.
  This is modelled as an event trace per run.
* Each `createRoot(...).render(<ContextProvider>…)` call mounts a fresh
  `ContextProvider` (a fresh `useState` cell), modelled by a fresh instance
  id; every `<Provider store={store}>` passes the single module-level store
  created by `configureStore` at the top of the file, modelled by one fixed
  store id.
-/

/-- The two strategies: `context` is the scoped provider strategy, `redux`
the broadcast store strategy (the source's `method: "context" | "redux"`). -/
inductive Method where
  | context
  | redux
deriving DecidableEq, Repr

/-- One point of the benchmark matrix (the spec's RunSpec). -/
structure RunSpec where
  method : Method
  size : Nat
  depth : Nat
deriving DecidableEq, Repr

/-- A completed run: its spec together with the elapsed time passed to
`onComplete` (the spec's RunResult). -/
structure RunResult where
  spec : RunSpec
  elapsedMs : ℚ
deriving DecidableEq, Repr

/-- The size label used as outer key: `` `${size} objects` ``. -/
def sizeLabel (size : Nat) : String := toString size ++ " objects"

/-- The depth label used as inner key: `` `Depth ${depth}` ``. -/
def depthLabel (depth : Nat) : String := "Depth " ++ toString depth

/-- JS object assignment `obj[k] = v` on a string-keyed object modelled as an
association list: overwrite the first occurrence of `k` in place, otherwise
append `(k, v)` at the end (JS key insertion order). -/
def setKey {α : Type} : List (String × α) → String → α → List (String × α)
  | [], k, v => [(k, v)]
  | (k', v') :: rest, k, v =>
    if k' = k then (k, v) :: rest else (k', v') :: setKey rest k v

/-- JS object property read `obj[k]`, `none` when the key is absent. -/
def getKey? {α : Type} : List (String × α) → String → Option α
  | [], _ => none
  | (k', v') :: rest, k => if k' = k then some v' else getKey? rest k

/-- The keys of a JS object, in order (`Object.keys`). -/
def ckeys {α : Type} (m : List (String × α)) : List String := m.map Prod.fst

/-- One strategy's results: size label ↦ (depth label ↦ elapsed ms). -/
abbrev StrategyResults := List (String × List (String × ℚ))

/-- The aggregation structure: `{ context: {...}, redux: {...} }`
(the source's `newResults` / `benchmarkResults`). -/
structure ResultMatrix where
  context : StrategyResults
  redux : StrategyResults
deriving DecidableEq, Repr

/-- Empty matrix, `{ context: {}, redux: {} }`. -/
def ResultMatrix.empty : ResultMatrix := ⟨[], []⟩

/-- Selecting the per-strategy object: `newResults[method]`. -/
def ResultMatrix.strategy (r : ResultMatrix) : Method → StrategyResults
  | .context => r.context
  | .redux => r.redux

/-- Reading a leaf cell `matrix[method][sl][dl]`, `none` when absent. -/
def ResultMatrix.get (r : ResultMatrix) (m : Method) (sl dl : String) : Option ℚ :=
  (getKey? (r.strategy m) sl).bind (fun inner => getKey? inner dl)

/-- The insertion performed by `completeBenchmark`'s handler:
`if (!newResults[method][sizeLabel]) newResults[method][sizeLabel] = {};`
followed by `newResults[method][sizeLabel][depthLabel] = time`. -/
def recordResult (r : ResultMatrix) (method : Method) (size depth : Nat)
    (time : ℚ) : ResultMatrix :=
  let sl := sizeLabel size
  let dl := depthLabel depth
  let upd : StrategyResults → StrategyResults := fun obj =>
    let inner := (getKey? obj sl).getD []
    setKey obj sl (setKey inner dl time)
  match method with
  | .context => { r with context := upd r.context }
  | .redux => { r with redux := upd r.redux }

/-- The configured size list (`arraySizes` in `runBenchmarks`). -/
def arraySizes : List Nat := [10, 100, 1000, 10000, 100000, 1000000]

/-- The configured depth list (`depths` in `runBenchmarks`). -/
def depths : List Nat := [5, 10, 20, 50, 60, 70, 80, 90, 100]

/-- The completeness test run after each insertion:
`Object.keys(newResults.context).length === arraySizes.length &&
 Object.keys(newResults.redux).length === arraySizes.length`,
with the configured size list abstracted as a parameter. -/
def isComplete (sizes : List Nat) (r : ResultMatrix) : Bool :=
  decide (r.context.length = sizes.length) &&
  decide (r.redux.length = sizes.length)

/-- The RunSpecs issued by one invocation of `runBenchmarks`, in issue order:
for each size (outer loop) and each depth (inner loop), a context mount
followed by a redux mount. Size and depth lists are parameters so the spec's
reduced test matrix can be instantiated as well. -/
def sweepSpecs (sizes ds : List Nat) : List RunSpec :=
  sizes.flatMap fun size => ds.flatMap fun depth =>
    [⟨Method.context, size, depth⟩, ⟨Method.redux, size, depth⟩]

/-- The RunSpecs of the actual configured sweep. -/
def runBenchmarksSpecs : List RunSpec := sweepSpecs arraySizes depths

/-- The harness state carried across one sweep: the mutable accumulation
object `newResults`, the published React state `benchmarkResults`, and the
`isRunning` flag. -/
structure SweepState where
  newResults : ResultMatrix
  benchmarkResults : ResultMatrix
  isRunning : Bool
deriving DecidableEq, Repr

/-- One invocation of the handler produced by `completeBenchmark`: insert the
elapsed time at the run's own key, then, when the completeness test passes,
publish the matrix (`setBenchmarkResults(newResults)`) and clear the running
flag (`setIsRunning(false)`). -/
def completeBenchmark (sizes : List Nat) (st : SweepState) (rr : RunResult) :
    SweepState :=
  let m := recordResult st.newResults rr.spec.method rr.spec.size rr.spec.depth
    rr.elapsedMs
  if isComplete sizes m then ⟨m, m, false⟩
  else ⟨m, st.benchmarkResults, st.isRunning⟩

/-- The state of one sweep just after `runBenchmarks` has issued all mounts:
`isRunning` was set, `newResults` is fresh, nothing is published yet beyond
the previous `benchmarkResults` (empty for a first sweep). -/
def sweepStart : SweepState := ⟨ResultMatrix.empty, ResultMatrix.empty, true⟩

/-- The sweep state after the completions in `rs` have arrived, in that
order. -/
def runSweep (sizes : List Nat) (rs : List RunResult) : SweepState :=
  rs.foldl (completeBenchmark sizes) sweepStart

/-- The canonical results of a sweep, one per issued RunSpec in issue order,
with elapsed times given by `t`. -/
def canonicalResults (sizes ds : List Nat) (t : RunSpec → ℚ) : List RunResult :=
  (sweepSpecs sizes ds).map fun s => ⟨s, t s⟩

/-- The full key under which a run's result is stored. -/
def runKey (s : RunSpec) : Method × String × String :=
  (s.method, sizeLabel s.size, depthLabel s.depth)

/-- Reading a leaf cell by a full key. -/
def ResultMatrix.getKey (r : ResultMatrix) (k : Method × String × String) :
    Option ℚ :=
  r.get k.1 k.2.1 k.2.2

/-- One synthetic record produced by `generateTestData`:
`{ id: i, name: "Item " + i, value: Math.random() * 1000 }`. -/
structure Item where
  id : Nat
  name : String
  value : ℚ
deriving DecidableEq, Repr

/-- The payload generator `generateTestData`:
`Array.from({length: size}, (_, i) => ({id: i, name: "Item " + i,
value: Math.random() * 1000}))`, with `Math.random()` modelled by the stream
`rand`. -/
def generateTestData (size : Nat) (rand : Nat → ℚ) : List Item :=
  (List.range size).map fun i => ⟨i, "Item " ++ toString i, rand i * 1000⟩

/-- Observable events of one mounted `BenchmarkApp`: rendering one inert
`NestedChild` layer, the leaf's update call (`updateData(newData)` for
context, `dispatch(dataSlice.actions.updateData(newData))` for redux), and
the `onComplete` call. -/
inductive RenderEvent where
  | mountLayer
  | applyUpdate (method : Method)
  | complete
deriving DecidableEq, Repr

/-- The event trace of mounting `<NestedChild level={depth}>`: each positive
level renders one inert layer and recurses with `level - 1`; at level 0 the
leaf's effect runs once (empty dependency array), applying the update via the
strategy and then invoking `onComplete`. -/
def nestedChildTrace (method : Method) : Nat → List RenderEvent
  | 0 => [RenderEvent.applyUpdate method, RenderEvent.complete]
  | n + 1 => RenderEvent.mountLayer :: nestedChildTrace method n

/-- The elapsed time computed by a run's effect:
`endTime - startTime` with both timestamps from `performance.now()`. -/
def benchmarkElapsed (startTime endTime : ℚ) : ℚ := endTime - startTime

/-- A propagation medium instance. A fresh `ContextProvider` mount owns a
fresh `useState` cell (identified here by an instance id); a redux
`<Provider store={...}>` passes a store instance (identified by a store
id). -/
inductive Medium where
  | contextProvider (id : Nat)
  | reduxStore (id : Nat)
deriving DecidableEq, Repr

/-- Identity of the single module-level store built by `configureStore` at
the top of the file and passed to every `<Provider store={store}>`. -/
def storeId : Nat := 0

/-- A run as issued by `runBenchmarks`: its spec together with the
propagation medium instance its tree is mounted with. -/
structure IssuedRun where
  spec : RunSpec
  medium : Medium
deriving DecidableEq, Repr

/-- Loop iterations of `runBenchmarks`, in order: size outer, depth inner. -/
def sweepPairs (sizes ds : List Nat) : List (Nat × Nat) :=
  sizes.flatMap fun s => ds.map fun d => (s, d)

/-- The runs issued by `runBenchmarks` with their mediums: each iteration
mounts a fresh `ContextProvider` (a fresh instance id, here the iteration
index) around the context run, and mounts the redux run with
`<Provider store={store}>`, the one module-level store. -/
def issuedRunsFor (sizes ds : List Nat) : List IssuedRun :=
  (sweepPairs sizes ds).enum.flatMap fun p =>
    [⟨⟨Method.context, p.2.1, p.2.2⟩, Medium.contextProvider p.1⟩,
     ⟨⟨Method.redux, p.2.1, p.2.2⟩, Medium.reduxStore storeId⟩]

/-- The issued runs of the configured sweep. -/
def issuedRuns : List IssuedRun := issuedRunsFor arraySizes depths

/-- Full state of the `BenchmarkRunner` component: the sweep bookkeeping
plus the list of all RunSpecs issued so far (to observe whether an
invocation starts new runs). -/
structure UIState where
  sweep : SweepState
  issued : List RunSpec
deriving DecidableEq, Repr

/-- Initial React state: empty `benchmarkResults`, `isRunning = false`. -/
def UIState.initial : UIState := ⟨⟨ResultMatrix.empty, ResultMatrix.empty, false⟩, []⟩

/-- An interaction with the component: a click on the "Run Benchmarks"
button, or the arrival of one run's completion. -/
inductive UIEvent where
  | click
  | complete (rr : RunResult)
deriving DecidableEq, Repr

/-- Effect of a click: the button is rendered with `disabled={isRunning}`,
so a click while running does nothing; otherwise `runBenchmarks` runs:
`setIsRunning(true)`, a fresh `newResults`, and one mount per
(size, depth, strategy) triple. -/
def uiClick (sizes ds : List Nat) (st : UIState) : UIState :=
  if st.sweep.isRunning then st
  else ⟨⟨ResultMatrix.empty, st.sweep.benchmarkResults, true⟩,
    st.issued ++ sweepSpecs sizes ds⟩

/-- Effect of one event on the component state. -/
def uiStep (sizes ds : List Nat) (st : UIState) : UIEvent → UIState
  | .click => uiClick sizes ds st
  | .complete rr => ⟨completeBenchmark sizes st.sweep rr, st.issued⟩

/-- The component state after a sequence of events, from the initial
state. -/
def runUI (sizes ds : List Nat) (evts : List UIEvent) : UIState :=
  evts.foldl (uiStep sizes ds) UIState.initial

/-- Folding only the insertion part of the completion handler. -/
def recStep (m : ResultMatrix) (rr : RunResult) : ResultMatrix :=
  recordResult m rr.spec.method rr.spec.size rr.spec.depth rr.elapsedMs

/-- The populated size labels of one strategy, in insertion order. -/
def populatedSizeLabels (r : ResultMatrix) (m : Method) : List String :=
  ckeys (r.strategy m)

/-- The reduced size list of the spec's test sweep. -/
def reducedSizes : List Nat := [10, 100]

/-- The reduced depth list of the spec's test sweep. -/
def reducedDepths : List Nat := [5, 10]

/-- A completion order for the reduced sweep: the depth-5 run of every
(strategy, size) pair completes before any depth-10 run. -/
def earlyCompleteOrder : List RunResult :=
  [⟨⟨Method.context, 10, 5⟩, 1⟩, ⟨⟨Method.context, 100, 5⟩, 1⟩,
   ⟨⟨Method.redux, 10, 5⟩, 1⟩, ⟨⟨Method.redux, 100, 5⟩, 1⟩,
   ⟨⟨Method.context, 10, 10⟩, 1⟩, ⟨⟨Method.redux, 10, 10⟩, 1⟩,
   ⟨⟨Method.context, 100, 10⟩, 1⟩, ⟨⟨Method.redux, 100, 10⟩, 1⟩]

/-- An event run of the configured sweep: a click, then the depth-5
completion of every (strategy, size) pair — 12 of the 108 issued runs. -/
def earlyCoverageEvents : List UIEvent :=
  UIEvent.click ::
    (arraySizes.flatMap fun s =>
      [UIEvent.complete ⟨⟨Method.context, s, 5⟩, 1⟩,
       UIEvent.complete ⟨⟨Method.redux, s, 5⟩, 1⟩])

/-! Basic lemmas about the JS-object model. -/

theorem getKey?_setKey_self {α : Type} (m : List (String × α)) (k : String) (v : α) :
    getKey? (setKey m k v) k = some v := by
  induction m with
  | nil => simp [setKey, getKey?]
  | cons p rest ih =>
    obtain ⟨k', v'⟩ := p
    by_cases h : k' = k
    · simp [setKey, h, getKey?]
    · simp [setKey, h, getKey?, ih]

theorem getKey?_setKey_ne {α : Type} (m : List (String × α)) (k k' : String) (v : α)
    (h : k' ≠ k) : getKey? (setKey m k v) k' = getKey? m k' := by
  induction m with
  | nil => simp [setKey, getKey?, Ne.symm h]
  | cons p rest ih =>
    obtain ⟨k₀, v₀⟩ := p
    by_cases h0 : k₀ = k
    · subst h0
      simp [setKey, getKey?, Ne.symm h]
    · simp only [setKey, if_neg h0, getKey?]
      by_cases h1 : k₀ = k'
      · simp [h1]
      · simp [h1, ih]

theorem ckeys_cons {α : Type} (k₀ : String) (v₀ : α) (rest : List (String × α)) :
    ckeys ((k₀, v₀) :: rest) = k₀ :: ckeys rest := rfl

theorem ckeys_setKey_mem {α : Type} (m : List (String × α)) (k : String) (v : α)
    (h : k ∈ ckeys m) : ckeys (setKey m k v) = ckeys m := by
  induction m with
  | nil => simp [ckeys] at h
  | cons p rest ih =>
    obtain ⟨k₀, v₀⟩ := p
    by_cases h0 : k₀ = k
    · subst h0; simp [setKey, ckeys]
    · rw [ckeys_cons, List.mem_cons] at h
      rcases h with h | h
      · exact absurd h.symm h0
      · simp only [setKey, if_neg h0, ckeys_cons, ih h]

theorem ckeys_setKey_not_mem {α : Type} (m : List (String × α)) (k : String) (v : α)
    (h : k ∉ ckeys m) : ckeys (setKey m k v) = ckeys m ++ [k] := by
  induction m with
  | nil => simp [setKey, ckeys]
  | cons p rest ih =>
    obtain ⟨k₀, v₀⟩ := p
    rw [ckeys_cons, List.mem_cons] at h
    push_neg at h
    have h0 : ¬ k₀ = k := fun hh => h.1 hh.symm
    simp only [setKey, if_neg h0, ckeys_cons, ih h.2, List.cons_append]

theorem length_setKey_mem {α : Type} (m : List (String × α)) (k : String) (v : α)
    (h : k ∈ ckeys m) : (setKey m k v).length = m.length := by
  have h1 : (ckeys (setKey m k v)).length = (ckeys m).length := by
    rw [ckeys_setKey_mem m k v h]
  simpa [ckeys] using h1

theorem length_setKey_not_mem {α : Type} (m : List (String × α)) (k : String) (v : α)
    (h : k ∉ ckeys m) : (setKey m k v).length = m.length + 1 := by
  have h1 : (ckeys (setKey m k v)).length = (ckeys m).length + 1 := by
    simp [ckeys_setKey_not_mem m k v h]
  simpa [ckeys] using h1

theorem ckeys_setKey_nodup {α : Type} (m : List (String × α)) (k : String) (v : α)
    (h : (ckeys m).Nodup) : (ckeys (setKey m k v)).Nodup := by
  by_cases hm : k ∈ ckeys m
  · rw [ckeys_setKey_mem m k v hm]; exact h
  · rw [ckeys_setKey_not_mem m k v hm]
    simpa [List.nodup_append] using ⟨h, hm⟩

theorem mem_ckeys_setKey {α : Type} (m : List (String × α)) (k k' : String) (v : α) :
    k' ∈ ckeys (setKey m k v) ↔ k' ∈ ckeys m ∨ k' = k := by
  by_cases hm : k ∈ ckeys m
  · rw [ckeys_setKey_mem m k v hm]
    constructor
    · exact fun h => Or.inl h
    · rintro (h | rfl)
      · exact h
      · exact hm
  · rw [ckeys_setKey_not_mem m k v hm]
    simp

/-! Lemmas about a single insertion (`recordResult`). -/

theorem strategy_recordResult_same (r : ResultMatrix) (meth : Method)
    (size depth : Nat) (t : ℚ) :
    (recordResult r meth size depth t).strategy meth =
      setKey (r.strategy meth) (sizeLabel size)
        (setKey ((getKey? (r.strategy meth) (sizeLabel size)).getD [])
          (depthLabel depth) t) := by
  cases meth <;> rfl

theorem strategy_recordResult_other (r : ResultMatrix) (meth meth' : Method)
    (size depth : Nat) (t : ℚ) (h : meth' ≠ meth) :
    (recordResult r meth size depth t).strategy meth' = r.strategy meth' := by
  cases meth <;> cases meth' <;> first | rfl | exact absurd rfl h

theorem get_recordResult_self (r : ResultMatrix) (meth : Method)
    (size depth : Nat) (t : ℚ) :
    (recordResult r meth size depth t).get meth (sizeLabel size)
      (depthLabel depth) = some t := by
  unfold ResultMatrix.get
  rw [strategy_recordResult_same, getKey?_setKey_self]
  simp [getKey?_setKey_self]

theorem get_recordResult_ne (r : ResultMatrix) (meth : Method)
    (size depth : Nat) (t : ℚ) (meth' : Method) (sl' dl' : String)
    (h : (meth', sl', dl') ≠ (meth, sizeLabel size, depthLabel depth)) :
    (recordResult r meth size depth t).get meth' sl' dl' = r.get meth' sl' dl' := by
  by_cases hm : meth' = meth
  · subst hm
    by_cases hs : sl' = sizeLabel size
    · subst hs
      have hd : dl' ≠ depthLabel depth := by
        intro hh; subst hh; exact h rfl
      unfold ResultMatrix.get
      rw [strategy_recordResult_same, getKey?_setKey_self]
      cases hobj : getKey? (r.strategy meth') (sizeLabel size) with
      | none => simp [hobj, getKey?_setKey_ne _ _ _ _ hd, getKey?, Ne.symm hd]
      | some inner0 => simp [hobj, getKey?_setKey_ne _ _ _ _ hd]
    · unfold ResultMatrix.get
      rw [strategy_recordResult_same, getKey?_setKey_ne _ _ _ _ hs]
  · unfold ResultMatrix.get
    rw [strategy_recordResult_other r meth meth' size depth t hm]

/-! Lemmas about folding completions into the matrix. -/

theorem getKey_recStep_self (m : ResultMatrix) (rr : RunResult) :
    (recStep m rr).getKey (runKey rr.spec) = some rr.elapsedMs :=
  get_recordResult_self m rr.spec.method rr.spec.size rr.spec.depth rr.elapsedMs

theorem getKey_recStep_ne (m : ResultMatrix) (rr : RunResult)
    (k : Method × String × String) (h : k ≠ runKey rr.spec) :
    (recStep m rr).getKey k = m.getKey k := by
  obtain ⟨meth', sl', dl'⟩ := k
  exact get_recordResult_ne m rr.spec.method rr.spec.size rr.spec.depth
    rr.elapsedMs meth' sl' dl' h

theorem getKey_foldl_recStep_not_mem (rs : List RunResult) (init : ResultMatrix)
    (k : Method × String × String) (h : k ∉ rs.map (fun r => runKey r.spec)) :
    (rs.foldl recStep init).getKey k = init.getKey k := by
  induction rs generalizing init with
  | nil => rfl
  | cons a l ih =>
    rw [List.map_cons, List.mem_cons] at h
    push_neg at h
    rw [List.foldl_cons, ih (recStep init a) h.2, getKey_recStep_ne init a k h.1]

theorem getKey_foldl_recStep_self (rs : List RunResult) (init : ResultMatrix)
    (hnd : (rs.map (fun r => runKey r.spec)).Nodup) (r : RunResult) (hr : r ∈ rs) :
    (rs.foldl recStep init).getKey (runKey r.spec) = some r.elapsedMs := by
  induction rs generalizing init with
  | nil => cases hr
  | cons a l ih =>
    rw [List.map_cons, List.nodup_cons] at hnd
    rcases List.mem_cons.mp hr with rfl | hr'
    · rw [List.foldl_cons,
        getKey_foldl_recStep_not_mem l (recStep init r) _ hnd.1,
        getKey_recStep_self]
    · rw [List.foldl_cons]
      exact ih (recStep init a) hnd.2 hr'

theorem foldl_completeBenchmark_newResults (sizes : List Nat)
    (rs : List RunResult) :
    ∀ st : SweepState, (rs.foldl (completeBenchmark sizes) st).newResults =
      rs.foldl recStep st.newResults := by
  induction rs with
  | nil => intro st; rfl
  | cons a l ih =>
    intro st
    rw [List.foldl_cons, List.foldl_cons, ih]
    congr 1
    simp only [completeBenchmark, recStep]
    split <;> rfl

theorem runSweep_newResults (sizes : List Nat) (rs : List RunResult) :
    (runSweep sizes rs).newResults = rs.foldl recStep ResultMatrix.empty :=
  foldl_completeBenchmark_newResults sizes rs sweepStart

theorem mem_sweepSpecs (sizes ds : List Nat) (spec : RunSpec) :
    spec ∈ sweepSpecs sizes ds ↔ spec.size ∈ sizes ∧ spec.depth ∈ ds := by
  constructor
  · intro h
    simp only [sweepSpecs, List.mem_flatMap] at h
    obtain ⟨s, hs, d, hd, hmem⟩ := h
    rcases List.mem_cons.mp hmem with rfl | hmem
    · exact ⟨hs, hd⟩
    · rcases List.mem_cons.mp hmem with rfl | hmem
      · exact ⟨hs, hd⟩
      · cases hmem
  · rintro ⟨hs, hd⟩
    simp only [sweepSpecs, List.mem_flatMap]
    refine ⟨spec.size, hs, spec.depth, hd, ?_⟩
    obtain ⟨m, size, depth⟩ := spec
    cases m <;> simp

theorem spec_mem_of_mem_canonical (sizes ds : List Nat) (t : RunSpec → ℚ)
    (r : RunResult) (hr : r ∈ canonicalResults sizes ds t) :
    r.spec ∈ sweepSpecs sizes ds ∧ r.elapsedMs = t r.spec := by
  simp only [canonicalResults, List.mem_map] at hr
  obtain ⟨s, hs, rfl⟩ := hr
  exact ⟨hs, rfl⟩

theorem map_runKey_canonical (sizes ds : List Nat) (t : RunSpec → ℚ) :
    (canonicalResults sizes ds t).map (fun r => runKey r.spec) =
      (sweepSpecs sizes ds).map runKey := by
  simp [canonicalResults, List.map_map, Function.comp_def]

/-! Lemmas about the populated size labels and the completeness check. -/

theorem mem_populated_recStep (init : ResultMatrix) (a : RunResult)
    (meth : Method) (k : String) :
    k ∈ populatedSizeLabels (recStep init a) meth ↔
      k ∈ populatedSizeLabels init meth ∨
        (a.spec.method = meth ∧ k = sizeLabel a.spec.size) := by
  by_cases hm : a.spec.method = meth
  · subst hm
    unfold populatedSizeLabels recStep
    rw [strategy_recordResult_same, mem_ckeys_setKey]
    simp
  · unfold populatedSizeLabels recStep
    rw [strategy_recordResult_other _ _ _ _ _ _ (fun hh => hm hh.symm)]
    simp [hm]

theorem populated_nodup_recStep (init : ResultMatrix) (a : RunResult)
    (meth : Method) (h : (populatedSizeLabels init meth).Nodup) :
    (populatedSizeLabels (recStep init a) meth).Nodup := by
  by_cases hm : a.spec.method = meth
  · subst hm
    unfold populatedSizeLabels recStep
    rw [strategy_recordResult_same]
    exact ckeys_setKey_nodup _ _ _ h
  · unfold populatedSizeLabels recStep
    rw [strategy_recordResult_other _ _ _ _ _ _ (fun hh => hm hh.symm)]
    exact h

theorem mem_populated_foldl (rs : List RunResult) (init : ResultMatrix)
    (meth : Method) (k : String) :
    k ∈ populatedSizeLabels (rs.foldl recStep init) meth ↔
      k ∈ populatedSizeLabels init meth ∨
        ∃ r ∈ rs, r.spec.method = meth ∧ k = sizeLabel r.spec.size := by
  induction rs generalizing init with
  | nil => simp
  | cons a l ih =>
    rw [List.foldl_cons, ih, mem_populated_recStep]
    constructor
    · rintro ((h | h) | ⟨r, hr, h⟩)
      · exact Or.inl h
      · exact Or.inr ⟨a, List.mem_cons_self a l, h⟩
      · exact Or.inr ⟨r, List.mem_cons_of_mem a hr, h⟩
    · rintro (h | ⟨r, hr, h⟩)
      · exact Or.inl (Or.inl h)
      · rcases List.mem_cons.mp hr with rfl | hr'
        · exact Or.inl (Or.inr h)
        · exact Or.inr ⟨r, hr', h⟩

theorem populated_nodup_foldl (rs : List RunResult) (init : ResultMatrix)
    (meth : Method) (h : (populatedSizeLabels init meth).Nodup) :
    (populatedSizeLabels (rs.foldl recStep init) meth).Nodup := by
  induction rs generalizing init with
  | nil => exact h
  | cons a l ih =>
    rw [List.foldl_cons]
    exact ih (recStep init a) (populated_nodup_recStep init a meth h)

theorem length_eq_iff_toFinset_eq (l labels : List String)
    (hl : l.Nodup) (hlabels : labels.Nodup) (hsub : ∀ k ∈ l, k ∈ labels) :
    l.length = labels.length ↔ l.toFinset = labels.toFinset := by
  have hsub' : l.toFinset ⊆ labels.toFinset := by
    intro x hx
    rw [List.mem_toFinset] at hx ⊢
    exact hsub x hx
  constructor
  · intro hlen
    refine Finset.eq_of_subset_of_card_le hsub' ?_
    rw [List.toFinset_card_of_nodup hl, List.toFinset_card_of_nodup hlabels]
    exact le_of_eq hlen.symm
  · intro hset
    have hc := congrArg Finset.card hset
    rwa [List.toFinset_card_of_nodup hl, List.toFinset_card_of_nodup hlabels]
      at hc

theorem strategy_context (r : ResultMatrix) :
    r.strategy Method.context = r.context := rfl

theorem strategy_redux (r : ResultMatrix) :
    r.strategy Method.redux = r.redux := rfl

theorem populatedSizeLabels_length (r : ResultMatrix) (meth : Method) :
    (populatedSizeLabels r meth).length = (r.strategy meth).length := by
  simp [populatedSizeLabels, ckeys]

theorem populatedSizeLabels_empty (meth : Method) :
    populatedSizeLabels ResultMatrix.empty meth = [] := by
  cases meth <;> rfl

theorem isComplete_iff_toFinset (sizes : List Nat) (r : ResultMatrix)
    (hlbl : (sizes.map sizeLabel).Nodup)
    (hndc : (populatedSizeLabels r Method.context).Nodup)
    (hndr : (populatedSizeLabels r Method.redux).Nodup)
    (hsubc : ∀ k ∈ populatedSizeLabels r Method.context, k ∈ sizes.map sizeLabel)
    (hsubr : ∀ k ∈ populatedSizeLabels r Method.redux, k ∈ sizes.map sizeLabel) :
    isComplete sizes r = true ↔
      (populatedSizeLabels r Method.context).toFinset
          = (sizes.map sizeLabel).toFinset ∧
      (populatedSizeLabels r Method.redux).toFinset
          = (sizes.map sizeLabel).toFinset := by
  have hc := length_eq_iff_toFinset_eq _ _ hndc hlbl hsubc
  have hr2 := length_eq_iff_toFinset_eq _ _ hndr hlbl hsubr
  rw [populatedSizeLabels_length, strategy_context, List.length_map] at hc
  rw [populatedSizeLabels_length, strategy_redux, List.length_map] at hr2
  unfold isComplete
  rw [Bool.and_eq_true, decide_eq_true_eq, decide_eq_true_eq]
  exact and_congr hc hr2

theorem populated_sub_labels_foldl (sizes ds : List Nat) (rs : List RunResult)
    (hspecs : ∀ r ∈ rs, r.spec ∈ sweepSpecs sizes ds) (meth : Method) :
    ∀ k ∈ populatedSizeLabels (rs.foldl recStep ResultMatrix.empty) meth,
      k ∈ sizes.map sizeLabel := by
  intro k hk
  rw [mem_populated_foldl, populatedSizeLabels_empty] at hk
  rcases hk with hk | ⟨r, hr, _, rfl⟩
  · cases hk
  · exact List.mem_map_of_mem sizeLabel
      ((mem_sweepSpecs sizes ds r.spec).mp (hspecs r hr)).1

theorem populated_nodup_sweep (rs : List RunResult) (meth : Method) :
    (populatedSizeLabels (rs.foldl recStep ResultMatrix.empty) meth).Nodup :=
  populated_nodup_foldl rs ResultMatrix.empty meth
    (by rw [populatedSizeLabels_empty]; exact List.nodup_nil)

theorem isComplete_mono_recStep (sizes ds : List Nat) (l : List RunResult)
    (a : RunResult) (hlbl : (sizes.map sizeLabel).Nodup)
    (hspecs : ∀ r ∈ l, r.spec ∈ sweepSpecs sizes ds)
    (ha : a.spec ∈ sweepSpecs sizes ds)
    (h : isComplete sizes (l.foldl recStep ResultMatrix.empty) = true) :
    isComplete sizes (recStep (l.foldl recStep ResultMatrix.empty) a) = true := by
  have hndc := populated_nodup_sweep l Method.context
  have hndr := populated_nodup_sweep l Method.redux
  have hsubc := populated_sub_labels_foldl sizes ds l hspecs Method.context
  have hsubr := populated_sub_labels_foldl sizes ds l hspecs Method.redux
  obtain ⟨hc, hr⟩ :=
    (isComplete_iff_toFinset sizes _ hlbl hndc hndr hsubc hsubr).mp h
  have hsize : sizeLabel a.spec.size ∈ sizes.map sizeLabel :=
    List.mem_map_of_mem sizeLabel ((mem_sweepSpecs sizes ds a.spec).mp ha).1
  have hsubc' : ∀ k ∈ populatedSizeLabels
      (recStep (l.foldl recStep ResultMatrix.empty) a) Method.context,
      k ∈ sizes.map sizeLabel := by
    intro k hk
    rw [mem_populated_recStep] at hk
    rcases hk with hk | ⟨_, rfl⟩
    · exact hsubc k hk
    · exact hsize
  have hsubr' : ∀ k ∈ populatedSizeLabels
      (recStep (l.foldl recStep ResultMatrix.empty) a) Method.redux,
      k ∈ sizes.map sizeLabel := by
    intro k hk
    rw [mem_populated_recStep] at hk
    rcases hk with hk | ⟨_, rfl⟩
    · exact hsubr k hk
    · exact hsize
  refine (isComplete_iff_toFinset sizes _ hlbl
    (populated_nodup_recStep _ a Method.context hndc)
    (populated_nodup_recStep _ a Method.redux hndr)
    hsubc' hsubr').mpr ⟨?_, ?_⟩
  · ext x
    simp only [List.mem_toFinset, mem_populated_recStep]
    constructor
    · rintro (hx | ⟨_, rfl⟩)
      · rw [← List.mem_toFinset, hc, List.mem_toFinset] at hx
        exact hx
      · exact hsize
    · intro hx
      left
      rw [← List.mem_toFinset, hc, List.mem_toFinset]
      exact hx
  · ext x
    simp only [List.mem_toFinset, mem_populated_recStep]
    constructor
    · rintro (hx | ⟨_, rfl⟩)
      · rw [← List.mem_toFinset, hr, List.mem_toFinset] at hx
        exact hx
      · exact hsize
    · intro hx
      left
      rw [← List.mem_toFinset, hr, List.mem_toFinset]
      exact hx

theorem runSweep_append_singleton (sizes : List Nat) (l : List RunResult)
    (a : RunResult) :
    runSweep sizes (l ++ [a]) = completeBenchmark sizes (runSweep sizes l) a := by
  unfold runSweep
  rw [List.foldl_append]
  rfl

theorem isRunning_false_iff_complete (sizes ds : List Nat) (rs : List RunResult)
    (hlbl : (sizes.map sizeLabel).Nodup) (hne : sizes ≠ [])
    (hspecs : ∀ r ∈ rs, r.spec ∈ sweepSpecs sizes ds) :
    (runSweep sizes rs).isRunning = false ↔
      isComplete sizes (runSweep sizes rs).newResults = true := by
  induction rs using List.reverseRecOn with
  | nil =>
    have hlen : sizes.length ≠ 0 := fun hh => hne (List.length_eq_zero.mp hh)
    constructor
    · intro h
      simp [runSweep, sweepStart] at h
    · intro h
      simp [runSweep, sweepStart, isComplete, ResultMatrix.empty] at h
      exact absurd h.symm hlen
  | append_singleton l a ih =>
    have hspecl : ∀ r ∈ l, r.spec ∈ sweepSpecs sizes ds :=
      fun r hr => hspecs r (List.mem_append_left _ hr)
    have ha : a.spec ∈ sweepSpecs sizes ds :=
      hspecs a (List.mem_append_right _ (List.mem_cons_self a []))
    rw [runSweep_append_singleton]
    by_cases hcomp :
        isComplete sizes (recStep (runSweep sizes l).newResults a) = true
    · have : completeBenchmark sizes (runSweep sizes l) a =
          ⟨recStep (runSweep sizes l).newResults a,
           recStep (runSweep sizes l).newResults a, false⟩ := by
        simp only [completeBenchmark, recStep] at hcomp ⊢
        rw [if_pos hcomp]
      rw [this]
      simpa using hcomp
    · have hbranch : completeBenchmark sizes (runSweep sizes l) a =
          ⟨recStep (runSweep sizes l).newResults a,
           (runSweep sizes l).benchmarkResults, (runSweep sizes l).isRunning⟩ := by
        simp only [completeBenchmark, recStep] at hcomp ⊢
        rw [if_neg (by simpa using hcomp)]
      rw [hbranch]
      constructor
      · intro hflag
        exfalso
        have h2 := (ih hspecl).mp hflag
        rw [runSweep_newResults] at h2
        have h3 := isComplete_mono_recStep sizes ds l a hlbl hspecl ha h2
        rw [← runSweep_newResults] at h3
        exact hcomp h3
      · intro h
        exact absurd h hcomp

theorem getKey_empty (k : Method × String × String) :
    ResultMatrix.empty.getKey k = none := by
  obtain ⟨m, sl, dl⟩ := k
  cases m <;> rfl

theorem canonical_keys_nodup (sizes ds : List Nat) (t : RunSpec → ℚ)
    (h : ((sweepSpecs sizes ds).map runKey).Nodup) :
    ((canonicalResults sizes ds t).map
      (fun r => runKey r.spec)).Nodup := by
  rw [map_runKey_canonical]
  exact h

theorem specs_of_perm_canonical (sizes ds : List Nat) (t : RunSpec → ℚ)
    (rs : List RunResult) (hperm : rs.Perm (canonicalResults sizes ds t)) :
    ∀ r ∈ rs, r.spec ∈ sweepSpecs sizes ds :=
  fun r hr => (spec_mem_of_mem_canonical sizes ds t r (hperm.subset hr)).1

theorem populated_full_of_perm (sizes ds : List Nat) (d0 : Nat)
    (hd0 : d0 ∈ ds) (meth : Method) (t : RunSpec → ℚ) (rs : List RunResult)
    (hperm : rs.Perm (canonicalResults sizes ds t)) :
    (populatedSizeLabels (rs.foldl recStep ResultMatrix.empty) meth).toFinset
      = (sizes.map sizeLabel).toFinset := by
  have hspecs := specs_of_perm_canonical sizes ds t rs hperm
  ext x
  simp only [List.mem_toFinset]
  constructor
  · exact fun hx =>
      populated_sub_labels_foldl sizes ds rs hspecs meth x hx
  · intro hx
    rw [List.mem_map] at hx
    obtain ⟨s, hs, rfl⟩ := hx
    rw [mem_populated_foldl]
    refine Or.inr ⟨⟨⟨meth, s, d0⟩, t ⟨meth, s, d0⟩⟩, ?_, rfl, rfl⟩
    exact hperm.symm.subset (List.mem_map_of_mem _
      ((mem_sweepSpecs sizes ds ⟨meth, s, d0⟩).mpr ⟨hs, hd0⟩))

/-! Claim theorems. -/

/-- Claim C4: for every non-negative integer size and any random stream with
values in `[0, 1)`, the payload generator returns exactly `size` records, the
record at position `i` has id `i`, name `"Item " ++ i` and value
`rand i * 1000` in `[0, 1000)`, and the ids are `0, …, size-1` in order with
no repeats. -/
theorem C4_generateTestData (size : Nat) (rand : Nat → ℚ)
    (h : ∀ i, 0 ≤ rand i ∧ rand i < 1) :
    (generateTestData size rand).length = size ∧
    (∀ i, i < size → (generateTestData size rand)[i]? =
      some ⟨i, "Item " ++ toString i, rand i * 1000⟩) ∧
    (∀ it ∈ generateTestData size rand, 0 ≤ it.value ∧ it.value < 1000) ∧
    (generateTestData size rand).map Item.id = List.range size := by
  refine ⟨by simp [generateTestData], ?_, ?_, ?_⟩
  · intro i hi
    simp [generateTestData, List.getElem?_map, List.getElem?_range, hi]
  · intro it hit
    simp only [generateTestData, List.mem_map, List.mem_range] at hit
    obtain ⟨i, hi, rfl⟩ := hit
    constructor
    · exact mul_nonneg (h i).1 (by norm_num)
    · have h2 := (h i).2
      show rand i * 1000 < 1000
      nlinarith
  · simp [generateTestData, List.map_map, Function.comp_def]

/-- Witness for C4 at size 3 with the constant stream 1/2. -/
theorem C4_generateTestData_witness :
    (∀ i : Nat, 0 ≤ (fun _ : Nat => (1 : ℚ)/2) i ∧
        (fun _ : Nat => (1 : ℚ)/2) i < 1) ∧
    ((generateTestData 3 (fun _ : Nat => (1 : ℚ)/2)).length = 3 ∧
      (∀ i, i < 3 → (generateTestData 3 (fun _ : Nat => (1 : ℚ)/2))[i]? =
        some ⟨i, "Item " ++ toString i, (fun _ : Nat => (1 : ℚ)/2) i * 1000⟩) ∧
      (∀ it ∈ generateTestData 3 (fun _ : Nat => (1 : ℚ)/2),
        0 ≤ it.value ∧ it.value < 1000) ∧
      (generateTestData 3 (fun _ : Nat => (1 : ℚ)/2)).map Item.id =
        List.range 3) :=
  ⟨fun _ => ⟨by norm_num, by norm_num⟩,
   C4_generateTestData 3 _ (fun _ => ⟨by norm_num, by norm_num⟩)⟩

/-- Claim C5: one invocation of the sweep issues exactly one run for every
(strategy, size, depth) triple of the configured cross product — the issued
list has no duplicates, and a triple is issued exactly when its size and
depth are configured. -/
theorem C5_sweep_cross_product :
    runBenchmarksSpecs.Nodup ∧
      ∀ spec : RunSpec, spec ∈ runBenchmarksSpecs ↔
        spec.size ∈ arraySizes ∧ spec.depth ∈ depths := by
  constructor
  · decide
  · intro spec
    unfold runBenchmarksSpecs
    exact mem_sweepSpecs arraySizes depths spec

/-- Witness for C5 at one concrete triple. -/
theorem C5_sweep_cross_product_witness :
    (⟨Method.context, 10, 5⟩ : RunSpec) ∈ runBenchmarksSpecs :=
  (C5_sweep_cross_product.2 ⟨Method.context, 10, 5⟩).mpr ⟨by decide, by decide⟩

/-- Claim C7: for every strategy and every depth ≥ 0, a mounted depth
simulator emits the update-apply event exactly once and the completion event
exactly once, with the update applied before completion; the whole trace is
`depth` inert layers followed by the update and the completion, so at depth 0
the update happens immediately with no intermediate layer. -/
theorem C7_depth_simulator (method : Method) (depth : Nat) :
    (nestedChildTrace method depth).count (RenderEvent.applyUpdate method) = 1 ∧
    (nestedChildTrace method depth).count RenderEvent.complete = 1 ∧
    nestedChildTrace method depth =
      List.replicate depth RenderEvent.mountLayer ++
        [RenderEvent.applyUpdate method, RenderEvent.complete] := by
  have h3 : nestedChildTrace method depth =
      List.replicate depth RenderEvent.mountLayer ++
        [RenderEvent.applyUpdate method, RenderEvent.complete] := by
    induction depth with
    | zero => rfl
    | succ n ih => rw [nestedChildTrace, ih, List.replicate_succ, List.cons_append]
  refine ⟨?_, ?_, h3⟩
  · rw [h3, List.count_append, List.count_replicate]
    simp
  · rw [h3, List.count_append, List.count_replicate]
    simp

/-- Witness for C7 at the depth-0 edge case of the scoped strategy. -/
theorem C7_depth_simulator_witness :
    nestedChildTrace Method.context 0 =
      List.replicate 0 RenderEvent.mountLayer ++
        [RenderEvent.applyUpdate Method.context, RenderEvent.complete] :=
  (C7_depth_simulator Method.context 0).2.2

/-- Claim C10: one aggregator insertion stores the elapsed time at its own
(strategy, size label, depth label) key, leaves every other cell unchanged
(creating intermediate objects as needed), and a second insertion at the same
key overwrites the first — last write wins. -/
theorem C10_record_frame (m : ResultMatrix) (meth : Method) (size depth : Nat)
    (t t' : ℚ) (meth' : Method) (sl' dl' : String)
    (hne : (meth', sl', dl') ≠ (meth, sizeLabel size, depthLabel depth)) :
    (recordResult m meth size depth t).get meth (sizeLabel size)
        (depthLabel depth) = some t ∧
    (recordResult m meth size depth t).get meth' sl' dl' = m.get meth' sl' dl' ∧
    (recordResult (recordResult m meth size depth t) meth size depth t').get
        meth (sizeLabel size) (depthLabel depth) = some t' :=
  ⟨get_recordResult_self m meth size depth t,
   get_recordResult_ne m meth size depth t meth' sl' dl' hne,
   get_recordResult_self _ meth size depth t'⟩

/-- Witness for C10: a concrete write into the empty matrix, a frame cell on
the other strategy, and an overwrite. -/
theorem C10_record_frame_witness :
    ((Method.redux, sizeLabel 10, depthLabel 5) ≠
        (Method.context, sizeLabel 10, depthLabel 5)) ∧
    ((recordResult ResultMatrix.empty Method.context 10 5 7).get Method.context
        (sizeLabel 10) (depthLabel 5) = some 7 ∧
      (recordResult ResultMatrix.empty Method.context 10 5 7).get Method.redux
        (sizeLabel 10) (depthLabel 5) =
          ResultMatrix.empty.get Method.redux (sizeLabel 10) (depthLabel 5) ∧
      (recordResult (recordResult ResultMatrix.empty Method.context 10 5 7)
          Method.context 10 5 9).get Method.context (sizeLabel 10)
        (depthLabel 5) = some 9) :=
  ⟨by decide,
   C10_record_frame ResultMatrix.empty Method.context 10 5 7 9 Method.redux
     (sizeLabel 10) (depthLabel 5) (by decide)⟩

/-- Claim C3: after every sequence of insertions coming from the sweep's
runs, the aggregator's completeness test succeeds exactly when, for both
strategies, the set of populated size labels equals the set of configured
size labels; the condition constrains size labels only — no requirement on
depth labels appears in it. -/
theorem C3_complete_iff_size_coverage (sizes ds : List Nat)
    (rs : List RunResult) (hlbl : (sizes.map sizeLabel).Nodup)
    (hspecs : ∀ r ∈ rs, r.spec ∈ sweepSpecs sizes ds) :
    isComplete sizes (runSweep sizes rs).newResults = true ↔
      (populatedSizeLabels (runSweep sizes rs).newResults
          Method.context).toFinset = (sizes.map sizeLabel).toFinset ∧
      (populatedSizeLabels (runSweep sizes rs).newResults
          Method.redux).toFinset = (sizes.map sizeLabel).toFinset := by
  rw [runSweep_newResults]
  exact isComplete_iff_toFinset sizes _ hlbl
    (populated_nodup_sweep rs Method.context)
    (populated_nodup_sweep rs Method.redux)
    (populated_sub_labels_foldl sizes ds rs hspecs Method.context)
    (populated_sub_labels_foldl sizes ds rs hspecs Method.redux)

/-- Witness for C3 on the reduced sweep after four insertions — note the
check succeeds there although depth cells are still missing. -/
theorem C3_complete_iff_size_coverage_witness :
    ((reducedSizes.map sizeLabel).Nodup ∧
      ∀ r ∈ earlyCompleteOrder.take 4,
        r.spec ∈ sweepSpecs reducedSizes reducedDepths) ∧
    (isComplete reducedSizes
        (runSweep reducedSizes (earlyCompleteOrder.take 4)).newResults = true ↔
      (populatedSizeLabels
          (runSweep reducedSizes (earlyCompleteOrder.take 4)).newResults
          Method.context).toFinset = (reducedSizes.map sizeLabel).toFinset ∧
      (populatedSizeLabels
          (runSweep reducedSizes (earlyCompleteOrder.take 4)).newResults
          Method.redux).toFinset = (reducedSizes.map sizeLabel).toFinset) :=
  ⟨⟨by decide, by decide⟩,
   C3_complete_iff_size_coverage reducedSizes reducedDepths
     (earlyCompleteOrder.take 4) (by decide) (by decide)⟩

/-- Claim C6: after a full sweep (the completions being any permutation of
the issued runs' results), each run's elapsed time sits at exactly its own
(strategy, size label, depth label) key — the cell holds that run's own
elapsedMs, never another run's — and keys belonging to no recorded run hold
nothing. -/
theorem C6_own_key (t : RunSpec → ℚ) (rs : List RunResult)
    (hperm : rs.Perm (canonicalResults arraySizes depths t)) :
    (∀ r ∈ rs, ((runSweep arraySizes rs).newResults).getKey (runKey r.spec) =
        some r.elapsedMs) ∧
    (∀ k : Method × String × String, k ∉ rs.map (fun r => runKey r.spec) →
        ((runSweep arraySizes rs).newResults).getKey k = none) := by
  have hnd : (rs.map (fun r => runKey r.spec)).Nodup :=
    ((hperm.map (fun r => runKey r.spec)).nodup_iff).mpr
      (canonical_keys_nodup arraySizes depths t (by decide))
  constructor
  · intro r hr
    rw [runSweep_newResults]
    exact getKey_foldl_recStep_self rs _ hnd r hr
  · intro k hk
    rw [runSweep_newResults, getKey_foldl_recStep_not_mem rs _ k hk,
      getKey_empty]

/-- Witness for C6 on the canonical completion order with unit times. -/
theorem C6_own_key_witness :
    ((canonicalResults arraySizes depths (fun _ => 1)).Perm
        (canonicalResults arraySizes depths (fun _ => 1))) ∧
    ((∀ r ∈ canonicalResults arraySizes depths (fun _ => 1),
      ((runSweep arraySizes
          (canonicalResults arraySizes depths (fun _ => 1))).newResults).getKey
        (runKey r.spec) = some r.elapsedMs) ∧
    (∀ k : Method × String × String,
      k ∉ (canonicalResults arraySizes depths (fun _ => 1)).map
          (fun r => runKey r.spec) →
      ((runSweep arraySizes
          (canonicalResults arraySizes depths (fun _ => 1))).newResults).getKey
        k = none)) :=
  ⟨List.Perm.refl _, C6_own_key (fun _ => 1) _ (List.Perm.refl _)⟩

/-- Claim C8: the final matrix of a sweep does not depend on the completion
order: for every permutation of the issued runs' results — in particular the
exact reverse of issue order — every issued run's cell holds that run's own
elapsed time, so the matrix is fully populated, and the completeness check
passes once all results are in. -/
theorem C8_order_independence (t : RunSpec → ℚ) (rs : List RunResult)
    (hperm : rs.Perm (canonicalResults arraySizes depths t)) :
    (∀ spec ∈ runBenchmarksSpecs,
      ((runSweep arraySizes rs).newResults).getKey (runKey spec) =
        some (t spec)) ∧
    isComplete arraySizes (runSweep arraySizes rs).newResults = true := by
  have hnd : (rs.map (fun r => runKey r.spec)).Nodup :=
    ((hperm.map (fun r => runKey r.spec)).nodup_iff).mpr
      (canonical_keys_nodup arraySizes depths t (by decide))
  have hspecs := specs_of_perm_canonical arraySizes depths t rs hperm
  constructor
  · intro spec hspec
    have hmem : (⟨spec, t spec⟩ : RunResult) ∈ rs :=
      hperm.symm.subset
        (List.mem_map_of_mem (fun s => (⟨s, t s⟩ : RunResult)) hspec)
    rw [runSweep_newResults]
    exact getKey_foldl_recStep_self rs _ hnd ⟨spec, t spec⟩ hmem
  · rw [runSweep_newResults]
    refine (isComplete_iff_toFinset arraySizes _ (by decide)
      (populated_nodup_sweep rs Method.context)
      (populated_nodup_sweep rs Method.redux)
      (populated_sub_labels_foldl arraySizes depths rs hspecs Method.context)
      (populated_sub_labels_foldl arraySizes depths rs hspecs Method.redux)).mpr
      ⟨populated_full_of_perm arraySizes depths 5 (by decide) Method.context
        t rs hperm,
       populated_full_of_perm arraySizes depths 5 (by decide) Method.redux
        t rs hperm⟩

/-- Witness for C8 on the exact reverse of issue order with unit times. -/
theorem C8_order_independence_witness :
    ((canonicalResults arraySizes depths (fun _ => 1)).reverse.Perm
        (canonicalResults arraySizes depths (fun _ => 1))) ∧
    ((∀ spec ∈ runBenchmarksSpecs,
      ((runSweep arraySizes
          ((canonicalResults arraySizes depths
            (fun _ => 1)).reverse)).newResults).getKey (runKey spec) =
        some ((fun _ => (1 : ℚ)) spec)) ∧
    isComplete arraySizes
      (runSweep arraySizes
        ((canonicalResults arraySizes depths
          (fun _ => 1)).reverse)).newResults = true) :=
  ⟨List.reverse_perm _,
   C8_order_independence (fun _ => 1) _ (List.reverse_perm _)⟩

set_option maxRecDepth 10000

/-- Counterexample to C1: two distinct broadcast-strategy runs of the same
sweep are issued with the very same store instance — the module-level store
created once by `configureStore` is passed to every redux mount. -/
theorem C1_shared_store_counterexample :
    (⟨⟨Method.redux, 10, 5⟩, Medium.reduxStore storeId⟩ : IssuedRun) ∈
        issuedRuns ∧
    (⟨⟨Method.redux, 10, 10⟩, Medium.reduxStore storeId⟩ : IssuedRun) ∈
        issuedRuns ∧
    (⟨Method.redux, 10, 5⟩ : RunSpec) ≠ ⟨Method.redux, 10, 10⟩ :=
  ⟨by decide, by decide, by decide⟩

/-- Claim C1 (amended): every scoped (context) run's provider instance is
created fresh for that run — its medium differs from every other issued
run's medium — while every broadcast (redux) run is issued with the one
module-level store instance, shared by all of them; the issued specs are
exactly the sweep's. -/
theorem C1_amended_mediums :
    (∀ r1 ∈ issuedRuns, ∀ r2 ∈ issuedRuns,
      r1.spec.method = Method.context → r1 ≠ r2 → r1.medium ≠ r2.medium) ∧
    (∀ r ∈ issuedRuns, r.spec.method = Method.redux →
      r.medium = Medium.reduxStore storeId) ∧
    issuedRuns.map IssuedRun.spec = runBenchmarksSpecs :=
  ⟨by decide, by decide, by decide⟩

/-- Witness for the amended C1 at two concrete issued runs. -/
theorem C1_amended_mediums_witness :
    ((⟨⟨Method.context, 10, 5⟩, Medium.contextProvider 0⟩ : IssuedRun) ∈
        issuedRuns ∧
      (⟨⟨Method.redux, 10, 5⟩, Medium.reduxStore storeId⟩ : IssuedRun) ∈
        issuedRuns) ∧
    (⟨⟨Method.context, 10, 5⟩, Medium.contextProvider 0⟩ : IssuedRun).medium ≠
      (⟨⟨Method.redux, 10, 5⟩, Medium.reduxStore storeId⟩ : IssuedRun).medium :=
  ⟨⟨by decide, by decide⟩,
   C1_amended_mediums.1 _ (by decide) _ (by decide) (by decide) (by decide)⟩

/-- Counterexample to C2: in the reduced sweep, the shown completion order
is a permutation of all eight results, yet already after its first four
completions the harness has published the matrix and cleared the running
flag although the scoped strategy's (10 objects, Depth 10) cell is still
unpopulated. -/
theorem C2_early_completion_counterexample :
    earlyCompleteOrder.Perm
      (canonicalResults reducedSizes reducedDepths (fun _ => 1)) ∧
    (runSweep reducedSizes (earlyCompleteOrder.take 4)).isRunning = false ∧
    (runSweep reducedSizes (earlyCompleteOrder.take 4)).benchmarkResults =
      (runSweep reducedSizes (earlyCompleteOrder.take 4)).newResults ∧
    (runSweep reducedSizes (earlyCompleteOrder.take 4)).newResults.get
      Method.context (sizeLabel 10) (depthLabel 10) = none :=
  ⟨by decide, by decide, by decide, by decide⟩

/-- Claim C2 (amended): in the reduced sweep, the running flag is cleared
(and the matrix published) exactly when both strategies' populated size
labels cover both configured sizes — which a prefix of the completions can
already achieve before all eight leaf cells are populated; once all eight
completions are in, in whatever order, all eight leaf cells are populated,
each with its own run's elapsed time, non-negative under a monotone clock. -/
theorem C2_amended_completion (startT endT : RunSpec → ℚ)
    (hmono : ∀ s, startT s ≤ endT s) (rs : List RunResult)
    (hperm : rs.Perm (canonicalResults reducedSizes reducedDepths
      (fun s => benchmarkElapsed (startT s) (endT s)))) :
    (∀ spec ∈ sweepSpecs reducedSizes reducedDepths,
      ((runSweep reducedSizes rs).newResults).getKey (runKey spec) =
          some (benchmarkElapsed (startT spec) (endT spec)) ∧
        0 ≤ benchmarkElapsed (startT spec) (endT spec)) ∧
    (∀ p, p <+: rs →
      ((runSweep reducedSizes p).isRunning = false ↔
        isComplete reducedSizes (runSweep reducedSizes p).newResults = true)) ∧
    isComplete reducedSizes (runSweep reducedSizes rs).newResults = true := by
  have hT : ∀ s : RunSpec,
      benchmarkElapsed (startT s) (endT s) = endT s - startT s := fun _ => rfl
  have hnd : (rs.map (fun r => runKey r.spec)).Nodup :=
    ((hperm.map (fun r => runKey r.spec)).nodup_iff).mpr
      (canonical_keys_nodup reducedSizes reducedDepths _ (by decide))
  have hspecs := specs_of_perm_canonical reducedSizes reducedDepths _ rs hperm
  refine ⟨?_, ?_, ?_⟩
  · intro spec hspec
    constructor
    · have hmem : (⟨spec, benchmarkElapsed (startT spec) (endT spec)⟩ :
          RunResult) ∈ rs :=
        hperm.symm.subset (List.mem_map_of_mem
          (fun s => (⟨s, benchmarkElapsed (startT s) (endT s)⟩ : RunResult))
          hspec)
      rw [runSweep_newResults]
      exact getKey_foldl_recStep_self rs _ hnd _ hmem
    · rw [hT]
      exact sub_nonneg.mpr (hmono spec)
  · intro p hp
    exact isRunning_false_iff_complete reducedSizes reducedDepths p
      (by decide) (by decide)
      (fun r hr => hspecs r (hp.subset hr))
  · rw [runSweep_newResults]
    exact (isComplete_iff_toFinset reducedSizes _ (by decide)
      (populated_nodup_sweep rs Method.context)
      (populated_nodup_sweep rs Method.redux)
      (populated_sub_labels_foldl reducedSizes reducedDepths rs hspecs
        Method.context)
      (populated_sub_labels_foldl reducedSizes reducedDepths rs hspecs
        Method.redux)).mpr
      ⟨populated_full_of_perm reducedSizes reducedDepths 5 (by decide)
        Method.context _ rs hperm,
       populated_full_of_perm reducedSizes reducedDepths 5 (by decide)
        Method.redux _ rs hperm⟩

/-- Witness for the amended C2: the canonical order with start time 0 and
end time 1 for every run. -/
theorem C2_amended_completion_witness :
    ((∀ s : RunSpec, (fun _ : RunSpec => (0 : ℚ)) s ≤
        (fun _ : RunSpec => (1 : ℚ)) s) ∧
      (canonicalResults reducedSizes reducedDepths
        (fun s => benchmarkElapsed ((fun _ : RunSpec => (0 : ℚ)) s)
          ((fun _ : RunSpec => (1 : ℚ)) s))).Perm
        (canonicalResults reducedSizes reducedDepths
          (fun s => benchmarkElapsed ((fun _ : RunSpec => (0 : ℚ)) s)
            ((fun _ : RunSpec => (1 : ℚ)) s)))) ∧
    isComplete reducedSizes
      (runSweep reducedSizes
        (canonicalResults reducedSizes reducedDepths
          (fun s => benchmarkElapsed ((fun _ : RunSpec => (0 : ℚ)) s)
            ((fun _ : RunSpec => (1 : ℚ)) s)))).newResults = true :=
  ⟨⟨fun _ => by norm_num, List.Perm.refl _⟩,
   (C2_amended_completion (fun _ => 0) (fun _ => 1) (fun _ => by norm_num) _
     (List.Perm.refl _)).2.2⟩

/-- Counterexample to C9: after a click and twelve completions (the depth-5
result of every strategy × size pair), the running flag is already clear
although the (context, 10, depth 10) run was issued and its result is still
outstanding; a further click at that point is not a no-op — it issues 108
new runs. -/
theorem C9_early_clear_counterexample :
    (runUI arraySizes depths earlyCoverageEvents).sweep.isRunning = false ∧
    (⟨Method.context, 10, 10⟩ : RunSpec) ∈
      (runUI arraySizes depths earlyCoverageEvents).issued ∧
    (runUI arraySizes depths earlyCoverageEvents).sweep.newResults.get
      Method.context (sizeLabel 10) (depthLabel 10) = none ∧
    (runUI arraySizes depths earlyCoverageEvents).issued.length = 108 ∧
    (uiClick arraySizes depths
      (runUI arraySizes depths earlyCoverageEvents)).issued.length = 216 :=
  ⟨by decide, by decide, by decide, by decide, by decide⟩

/-- Claim C9 (amended): while the running flag is set the harness reports
itself running and a click on the trigger is a no-op — the state, including
the issued-run list, is unchanged; a completion leaves the flag clear
exactly when the completeness check passes on the updated matrix, so the
flag is cleared only by a successful check, but that can happen while
results are still outstanding since the check needs only size-label
coverage. -/
theorem C9_amended_running (st : UIState) (rr : RunResult)
    (h : st.sweep.isRunning = true) :
    uiStep arraySizes depths st UIEvent.click = st ∧
    ((uiStep arraySizes depths st
        (UIEvent.complete rr)).sweep.isRunning = false ↔
      isComplete arraySizes (recordResult st.sweep.newResults rr.spec.method
        rr.spec.size rr.spec.depth rr.elapsedMs) = true) := by
  constructor
  · simp [uiStep, uiClick, h]
  · simp only [uiStep, completeBenchmark]
    split
    next hc => simpa using hc
    next hc =>
      simp only []
      constructor
      · intro hh
        rw [h] at hh
        cases hh
      · intro hh
        exact absurd hh hc

/-- Witness for the amended C9: the state right after a first click, with a
concrete completion. -/
theorem C9_amended_running_witness :
    ((runUI arraySizes depths [UIEvent.click]).sweep.isRunning = true) ∧
    uiStep arraySizes depths (runUI arraySizes depths [UIEvent.click])
      UIEvent.click = runUI arraySizes depths [UIEvent.click] :=
  ⟨by decide,
   (C9_amended_running (runUI arraySizes depths [UIEvent.click])
     ⟨⟨Method.context, 10, 5⟩, 1⟩ (by decide)).1⟩
